import Mathlib

/-!
Verification of the `Poly` class from `poly.cpp` / `poly.h`: a univariate
polynomial with `int` coefficients stored in a dense, dynamically allocated
array (`coeffList`, with `size` entries; index = exponent).

Shallow embedding: a `Poly` is the observable contents of its buffer, namely
the first `size` entries of `coeffList`, as a `List Int` (so `size` is the
length of the list).  Loops of the C++ code become structural recursions on
lists.  Where the C++ code reads uninitialized or out-of-bounds memory, the
embedding takes the values read as an explicit parameter (`junk`), so that
the undefined behaviour is modelled rather than papered over.
-/

namespace PolyCpp

/-- The `Poly` class: the observable coefficient buffer.  `coeffList[i]` is
the coefficient of `x^i`. -/
structure Poly where
  coeffList : List Int
deriving DecidableEq

/-- The `size` member: the number of stored coefficients. -/
def Poly.size (p : Poly) : Nat := p.coeffList.length

/-- Reading `l[n]` for an in-range index (out-of-range reads of a
`size`-guarded loop never happen; `getD` returns 0 there, which the lemmas
below only use for indices past the length, where the polynomial has no
stored term). -/
def listGet (l : List Int) (n : Nat) : Int := l.getD n 0

/-- The element-copy loop `for (i = 0; i < size; ++i) dst[i] = src[i];`
used by the copy constructor and `operator=`. -/
def copyList : List Int → List Int
  | [] => []
  | x :: xs => x :: copyList xs

/-- Default constructor `Poly()`: size 1, single entry 0. -/
def Poly.new0 : Poly := ⟨[0]⟩

/-- Constructor `Poly(int coeff)`: size 1, single entry `coeff`. -/
def Poly.new1 (coeff : Int) : Poly := ⟨[coeff]⟩

/-- Constructor `Poly(int coeff, int exp)`: size `|exp| + 1`, all entries 0
except the last, which is `coeff`. -/
def Poly.new2 (coeff exp : Int) : Poly :=
  ⟨List.replicate exp.natAbs 0 ++ [coeff]⟩

/-- Copy constructor `Poly(const Poly&)`. -/
def Poly.copy (orig : Poly) : Poly := ⟨copyList orig.coeffList⟩

/-- Accessor `Poly::getCoeff(int exp)`: 0 when `exp >= size || exp < 0`, else
`coeffList[exp]`. -/
def Poly.getCoeff (p : Poly) (exp : Int) : Int :=
  if (p.size : Int) ≤ exp ∨ exp < 0 then 0
  else listGet p.coeffList exp.toNat

/-- Mutator `Poly::setCoeff(int coeff, int exp)`: uses `index = |exp|`; when
`index >= size` allocates a buffer of `index + 1`, copies the old entries
into the prefix, zero-fills up to `index`, and (in both cases) writes
`coeffList[index] = coeff`. -/
def Poly.setCoeff (p : Poly) (coeff exp : Int) : Poly :=
  let index := exp.natAbs
  if p.size ≤ index then
    ⟨(copyList p.coeffList ++ List.replicate (index - p.size) 0) ++ [coeff]⟩
  else
    ⟨p.coeffList.set index coeff⟩

/-- Assignment `Poly::operator=`: the code first tests `this != &rhs` and does nothing
on self-assignment; otherwise it replaces the buffer with a fresh copy of
the buffer of `rhs`.  `selfAssign` records whether the argument aliases the receiver
(in which case `rhs` is `p` itself). -/
def Poly.assign (p rhs : Poly) (selfAssign : Bool) : Poly :=
  if selfAssign then p else ⟨copyList rhs.coeffList⟩

/-- The loop of `operator+` adding the smaller operand into a copy of the
larger one: `sum[i] += small[i]` for `i < small.size` (the first argument
is the copied larger buffer; the `[], _ :: _` case cannot arise because the
caller passes the longer list first). -/
def addInto : List Int → List Int → List Int
  | sum, [] => sum
  | b :: bs, s :: ss => (b + s) :: addInto bs ss
  | [], _ :: _ => []

/-- Addition `Poly::operator+`: copies the larger operand, adds the smaller into its
prefix. -/
def Poly.add (p rhs : Poly) : Poly :=
  if rhs.size < p.size then ⟨addInto (copyList p.coeffList) rhs.coeffList⟩
  else ⟨addInto (copyList rhs.coeffList) p.coeffList⟩

/-- One `prod[i+j] += ...` store of the convolution loops (the index is
always in range where the code uses it). -/
def addAt (l : List Int) (k : Nat) (v : Int) : List Int :=
  l.set k (listGet l k + v)

/-- The inner convolution loop `for (j) prod[i+j] += c * rhs[j]`, with `c`
the current left coefficient and `k` the running index `i + j`. -/
def accumInner : List Int → Int → List Int → Nat → List Int
  | acc, _, [], _ => acc
  | acc, x, y :: ys, k => accumInner (addAt acc k (x * y)) x ys (k + 1)

/-- The outer convolution loop `for (i) for (j) prod[i+j] += lhs[i]*rhs[j]`.
-/
def accumOuter : List Int → List Int → List Int → Nat → List Int
  | acc, [], _, _ => acc
  | acc, x :: xs, q, i => accumOuter (accumInner acc x q i) xs q (i + 1)

/-- Multiplication `Poly::operator*`: builds `prod` as a default `Poly` grown with
`prod.setCoeff(0, size + rhs.size - 2)`, then runs the convolution loops
over it. -/
def Poly.mul (p rhs : Poly) : Poly :=
  let prod := Poly.new0.setCoeff 0 ((p.size : Int) + (rhs.size : Int) - 2)
  ⟨accumOuter prod.coeffList p.coeffList rhs.coeffList 0⟩

/-- Compound multiply `Poly::operator*=`: the code allocates `new int[size + rhs.size - 1]`
WITHOUT initializing it (`junk` is the garbage the allocation happens to
contain), runs the convolution loops over that buffer, and installs it as
`coeffList` — but never updates the member `size`.  Every later read is
guarded by the stale `size`, so the observable coefficient list is the
first `size` entries of the new buffer. -/
def Poly.mulAssign (p rhs : Poly) (junk : List Int) : Poly :=
  ⟨(accumOuter junk p.coeffList rhs.coeffList 0).take p.size⟩

/-- A read `rhs.coeffList[i]` that the code does not bounds-check: in range
it is the stored entry, out of range it is whatever garbage (`junk i`) the
out-of-bounds read returns. -/
def readAt (l : List Int) (junk : Nat → Int) (i : Nat) : Int :=
  if i < l.length then listGet l i else junk i

/-- The in-place loop of `operator+=` / `operator-=`:
`for (i = 0; i < size; ++i) coeffList[i] op= rhs.coeffList[i]` — note the
bound is the size of the RECEIVER, so when the receiver is longer than
`rhs` the loop reads past the buffer of `rhs` (modelled by `junk`). -/
def inPlaceCombine (f : Int → Int → Int) :
    List Int → List Int → (Nat → Int) → Nat → List Int
  | [], _, _, _ => []
  | b :: bs, rhs, junk, i =>
      f b (readAt rhs junk i) :: inPlaceCombine f bs rhs junk (i + 1)

/-- Compound add `Poly::operator+=`: grow with `setCoeff(0, rhs.size - 1)` when the
receiver is shorter, then add element-wise in place. -/
def Poly.addAssign (p rhs : Poly) (junk : Nat → Int) : Poly :=
  let g := if p.size < rhs.size then p.setCoeff 0 ((rhs.size : Int) - 1) else p
  ⟨inPlaceCombine (· + ·) g.coeffList rhs.coeffList junk 0⟩

/-- Compound subtract `Poly::operator-=`: same shape as `operator+=` with subtraction. -/
def Poly.subAssign (p rhs : Poly) (junk : Nat → Int) : Poly :=
  let g := if p.size < rhs.size then p.setCoeff 0 ((rhs.size : Int) - 1) else p
  ⟨inPlaceCombine (· - ·) g.coeffList rhs.coeffList junk 0⟩

/-- The second loop of `Poly::compare`: the remaining entries of the larger
operand must all be 0. -/
def restAllZero : List Int → Bool
  | [] => true
  | y :: ys => decide (y = 0) && restAllZero ys

/-- The two loops of `Poly::compare` walking both lists in step (the
`_ :: _, []` case cannot arise: the caller guarantees the first list is no
longer than the second). -/
def compareAux : List Int → List Int → Bool
  | [], rest => restAllZero rest
  | x :: xs, y :: ys => decide (x = y) && compareAux xs ys
  | _ :: _, [] => false

/-- Comparison helper `Poly::compare(smaller, larger)` (precondition:
`smaller.size <= larger.size`). -/
def Poly.compare (smaller larger : Poly) : Bool :=
  compareAux smaller.coeffList larger.coeffList

/-- Equality `Poly::operator==`: dispatches to `compare` with the operands ordered
by size (`size > rhs.size` puts `rhs` first). -/
def Poly.eq (p rhs : Poly) : Bool :=
  if rhs.size < p.size then Poly.compare rhs p else Poly.compare p rhs

/-- Inequality `Poly::operator!=`: the negation `!(*this == rhs)`. -/
def Poly.ne (p rhs : Poly) : Bool := !(Poly.eq p rhs)

/-- One emitted term of `operator<<`: a space, `+` for positive
coefficients, the coefficient, `x` for exponents ≥ 1, `^exp` for
exponents ≥ 2. -/
def formatTerm (c : Int) (i : Nat) : String :=
  " " ++ (if 0 < c then "+" else "") ++ toString c
      ++ (if 0 < i then "x" else "")
      ++ (if 1 < i then "^" ++ toString i else "")

/-- The output loop of `operator<<`, from exponent `i` down to 0, skipping
zero coefficients. -/
def formatDown (l : List Int) : Nat → String
  | 0 => if listGet l 0 ≠ 0 then formatTerm (listGet l 0) 0 else ""
  | i + 1 =>
      (if listGet l (i + 1) ≠ 0 then formatTerm (listGet l (i + 1)) (i + 1) else "")
        ++ formatDown l i

/-- The text `operator<<` emits for a `Poly`: the output of the loop, or `" 0"`
when the `nonzero` flag stayed false (no non-zero coefficient exists). -/
def polyFormat (p : Poly) : String :=
  if p.coeffList.any (fun c => c != 0) then formatDown p.coeffList (p.size - 1)
  else " 0"

/-- Stream output `operator<<(ostream& output, const Poly& source)`: every character is
written with `cout <<`, never `output <<`.  Streams are modelled by the
strings they hold; the result is (the passed sink afterwards, the global
`cout` afterwards).  The passed sink comes back UNCHANGED. -/
def opOutput (output coutStream : String) (source : Poly) : String × String :=
  (output, coutStream ++ polyFormat source)

/-- The zeroing loop of `operator>>`: every existing entry of the target is
set to 0 (the length is untouched). -/
def Poly.zeroAll (p : Poly) : Poly := ⟨p.coeffList.map (fun _ => 0)⟩

/-- The read loop of `operator>>`, where `coeff, exp` hold the pair just read;
while it is not `0 0`, apply `setCoeff(coeff, exp)` and read the next pair.
`none` models a stream that ends before the terminating pair (the C++ code
would block/fail on the stream there). -/
def parseLoop (coeff exp : Int) (rest : List Int) (t : Poly) :
    Option (Poly × List Int) :=
  if coeff = 0 ∧ exp = 0 then some (t, rest)
  else
    match rest with
    | c :: e :: r => parseLoop c e r (t.setCoeff coeff exp)
    | _ => none

/-- Stream input `operator>>(istream& input, Poly& target)`: reads the first pair,
zeroes the entries of the target, then loops until the pair `0 0`.  (The C++
code reads the first pair before zeroing; the two orders are
observationally equal since reading does not touch the target.) -/
def opInput (stream : List Int) (target : Poly) : Option (Poly × List Int) :=
  match stream with
  | c :: e :: rest => parseLoop c e rest target.zeroAll
  | _ => none

-- basic lemmas about the helpers

theorem copyList_eq (l : List Int) : copyList l = l := by
  induction l with
  | nil => rfl
  | cons x xs ih => simp [copyList, ih]

theorem listGet_nil (n : Nat) : listGet [] n = 0 := by
  cases n <;> rfl

theorem listGet_cons_zero (x : Int) (xs : List Int) :
    listGet (x :: xs) 0 = x := rfl

theorem listGet_cons_succ (x : Int) (xs : List Int) (n : Nat) :
    listGet (x :: xs) (n + 1) = listGet xs n := rfl

theorem listGet_eq_zero_of_le (l : List Int) (n : Nat)
    (h : l.length ≤ n) : listGet l n = 0 := by
  simp [listGet, List.getD, List.getElem?_eq_none h]

theorem listGet_append_left (l m : List Int) (n : Nat) (h : n < l.length) :
    listGet (l ++ m) n = listGet l n := by
  simp [listGet, List.getD, List.getElem?_append_left h]

theorem listGet_append_right (l m : List Int) (n : Nat)
    (h : l.length ≤ n) :
    listGet (l ++ m) n = listGet m (n - l.length) := by
  simp [listGet, List.getD, List.getElem?_append_right h]

theorem listGet_replicate (k n : Nat) : listGet (List.replicate k 0) n = 0 := by
  rcases lt_or_le n k with h | h
  · simp [listGet, List.getD, List.getElem?_replicate, Nat.not_le.2 h, h]
  · exact listGet_eq_zero_of_le _ _ (by simpa using h)

theorem listGet_set (l : List Int) (k n : Nat) (v : Int) :
    listGet (l.set k v) n = if n = k ∧ k < l.length then v else listGet l n := by
  induction l generalizing k n with
  | nil => simp [listGet_nil]
  | cons x xs ih =>
    cases k with
    | zero =>
      cases n with
      | zero => simp [List.set, listGet_cons_zero]
      | succ m => simp [List.set, listGet_cons_succ]
    | succ k =>
      cases n with
      | zero => simp [List.set, listGet_cons_zero]
      | succ m =>
        simp only [List.set, listGet_cons_succ, ih]
        by_cases hmk : m = k <;> simp [hmk, Nat.succ_lt_succ_iff]

theorem addInto_length (s big : List Int) (h : s.length ≤ big.length) :
    (addInto big s).length = big.length := by
  induction big generalizing s with
  | nil =>
    cases s with
    | nil => rfl
    | cons x xs => simp at h
  | cons b bs ih =>
    cases s with
    | nil => rfl
    | cons x xs =>
      simp only [addInto, List.length_cons]
      rw [ih xs (by simpa using h)]

theorem addInto_get (s big : List Int) (h : s.length ≤ big.length) (n : Nat) :
    listGet (addInto big s) n = listGet big n + listGet s n := by
  induction big generalizing s n with
  | nil =>
    cases s with
    | nil => simp [addInto, listGet_nil]
    | cons x xs => simp at h
  | cons b bs ih =>
    cases s with
    | nil => simp [addInto, listGet_nil]
    | cons x xs =>
      cases n with
      | zero => simp [addInto, listGet_cons_zero]
      | succ m =>
        simp only [addInto, listGet_cons_succ]
        exact ih xs (by simpa using h) m

theorem addAt_length (l : List Int) (k : Nat) (v : Int) :
    (addAt l k v).length = l.length := by
  simp [addAt]

theorem addAt_get (l : List Int) (k : Nat) (v : Int) (hk : k < l.length)
    (n : Nat) :
    listGet (addAt l k v) n = listGet l n + (if n = k then v else 0) := by
  rw [addAt, listGet_set]
  by_cases hnk : n = k
  · subst hnk; simp [hk]
  · simp [hnk]

theorem accumInner_length (q : List Int) (x : Int) :
    ∀ acc k, (accumInner acc x q k).length = acc.length := by
  induction q with
  | nil => intro acc k; rfl
  | cons y ys ih =>
    intro acc k
    simp only [accumInner]
    rw [ih, addAt_length]

theorem accumInner_get (q : List Int) (x : Int) :
    ∀ acc k n, k + q.length ≤ acc.length →
      listGet (accumInner acc x q k) n
        = listGet acc n
          + (if k ≤ n ∧ n < k + q.length then x * listGet q (n - k) else 0) := by
  induction q with
  | nil =>
    intro acc k n _
    simp only [accumInner, List.length_nil, Nat.add_zero]
    have hno : ¬(k ≤ n ∧ n < k) := by omega
    simp [hno]
  | cons y ys ih =>
    intro acc k n h
    simp only [List.length_cons] at h
    have hk : k < acc.length := by omega
    have hlen : (k + 1) + ys.length ≤ (addAt acc k (x * y)).length := by
      rw [addAt_length]; omega
    simp only [accumInner]
    rw [ih (addAt acc k (x * y)) (k + 1) n hlen, addAt_get acc k (x * y) hk n]
    simp only [List.length_cons]
    by_cases hnk : n = k
    · have h1 : ¬(k + 1 ≤ n ∧ n < k + 1 + ys.length) := by omega
      have h2 : k ≤ n ∧ n < k + (ys.length + 1) := by omega
      have h4 : n - k = 0 := by omega
      rw [if_pos hnk, if_neg h1, if_pos h2, h4, listGet_cons_zero]
      ring
    · by_cases h2 : k + 1 ≤ n ∧ n < k + 1 + ys.length
      · have h3 : k ≤ n ∧ n < k + (ys.length + 1) := by omega
        have h4 : n - k = (n - (k + 1)) + 1 := by omega
        rw [if_neg hnk, if_pos h2, if_pos h3, h4, listGet_cons_succ]
        ring
      · have h3 : ¬(k ≤ n ∧ n < k + (ys.length + 1)) := by omega
        rw [if_neg hnk, if_neg h2, if_neg h3]
        ring

theorem accumOuter_length (p : List Int) (q : List Int) :
    ∀ acc i, (accumOuter acc p q i).length = acc.length := by
  induction p with
  | nil => intro acc i; rfl
  | cons x xs ih =>
    intro acc i
    simp only [accumOuter]
    rw [ih, accumInner_length]

theorem accumOuter_get (p q : List Int) :
    ∀ acc i n, i + p.length + q.length ≤ acc.length + 1 →
      listGet (accumOuter acc p q i) n
        = listGet acc n
          + ∑ a ∈ Finset.range p.length,
              (if i + a ≤ n ∧ n < i + a + q.length
               then listGet p a * listGet q (n - (i + a)) else 0) := by
  induction p with
  | nil => intro acc i n _; simp [accumOuter]
  | cons x xs ih =>
    intro acc i n h
    simp only [List.length_cons] at h
    have hinner : i + q.length ≤ acc.length := by omega
    have houter : (i + 1) + xs.length + q.length
        ≤ (accumInner acc x q i).length + 1 := by
      rw [accumInner_length]; omega
    simp only [accumOuter, List.length_cons]
    rw [ih (accumInner acc x q i) (i + 1) n houter,
        accumInner_get q x acc i n hinner,
        Finset.sum_range_succ']
    have hzero : (if i + 0 ≤ n ∧ n < i + 0 + q.length
        then listGet (x :: xs) 0 * listGet q (n - (i + 0)) else 0)
        = (if i ≤ n ∧ n < i + q.length then x * listGet q (n - i) else 0) := by
      simp [listGet_cons_zero]
    have hsucc : ∀ a, (if i + (a + 1) ≤ n ∧ n < i + (a + 1) + q.length
        then listGet (x :: xs) (a + 1) * listGet q (n - (i + (a + 1))) else 0)
        = (if (i + 1) + a ≤ n ∧ n < (i + 1) + a + q.length
           then listGet xs a * listGet q (n - ((i + 1) + a)) else 0) := by
      intro a
      have e1 : i + (a + 1) = (i + 1) + a := by ring
      rw [e1, listGet_cons_succ]
    rw [hzero]
    rw [Finset.sum_congr rfl (fun a _ => hsucc a)]
    ring

theorem restAllZero_iff (l : List Int) :
    restAllZero l = true ↔ ∀ i, i < l.length → listGet l i = 0 := by
  induction l with
  | nil => simp [restAllZero]
  | cons y ys ih =>
    simp only [restAllZero, Bool.and_eq_true, decide_eq_true_eq, ih,
      List.length_cons]
    constructor
    · rintro ⟨hy, hrest⟩ i hi
      cases i with
      | zero => simpa [listGet_cons_zero] using hy
      | succ m => rw [listGet_cons_succ]; exact hrest m (by omega)
    · intro hall
      refine ⟨by simpa [listGet_cons_zero] using hall 0 (by omega), ?_⟩
      intro i hi
      have := hall (i + 1) (by omega)
      rwa [listGet_cons_succ] at this

theorem compareAux_iff (s : List Int) :
    ∀ L : List Int, s.length ≤ L.length →
      (compareAux s L = true ↔
        (∀ i, i < s.length → listGet s i = listGet L i) ∧
        (∀ i, s.length ≤ i → i < L.length → listGet L i = 0)) := by
  induction s with
  | nil =>
    intro L _
    simp only [compareAux, List.length_nil]
    rw [restAllZero_iff]
    constructor
    · intro h
      exact ⟨fun i hi => by omega, fun i _ hi => h i hi⟩
    · rintro ⟨_, h⟩ i hi
      exact h i (by omega) hi
  | cons x xs ih =>
    intro L hL
    cases L with
    | nil => simp at hL
    | cons y ys =>
      simp only [compareAux, Bool.and_eq_true, decide_eq_true_eq,
        List.length_cons] at hL ⊢
      rw [ih ys (by omega)]
      constructor
      · rintro ⟨hxy, hpre, hpost⟩
        refine ⟨?_, ?_⟩
        · intro i hi
          cases i with
          | zero => simpa [listGet_cons_zero] using hxy
          | succ m =>
            rw [listGet_cons_succ, listGet_cons_succ]
            exact hpre m (by omega)
        · intro i h1 h2
          cases i with
          | zero => omega
          | succ m =>
            rw [listGet_cons_succ]
            exact hpost m (by omega) (by omega)
      · rintro ⟨hpre, hpost⟩
        refine ⟨?_, ?_, ?_⟩
        · have := hpre 0 (by omega)
          simpa [listGet_cons_zero] using this
        · intro i hi
          have := hpre (i + 1) (by omega)
          rwa [listGet_cons_succ, listGet_cons_succ] at this
        · intro i h1 h2
          have := hpost (i + 1) (by omega) (by omega)
          rwa [listGet_cons_succ] at this

theorem eq_true_of_ext (a b : Poly) (hsize : a.size = b.size)
    (h : ∀ k, listGet a.coeffList k = listGet b.coeffList k) :
    Poly.eq a b = true := by
  have hns : ¬ b.size < a.size := by omega
  rw [Poly.eq, if_neg hns, Poly.compare,
      (compareAux_iff a.coeffList b.coeffList (by
        simpa [Poly.size] using hsize.le))]
  exact ⟨fun i _ => h i, fun i h1 h2 => by
    have := hsize
    simp only [Poly.size] at this
    omega⟩

theorem coeff_natCast (p : Poly) (k : Nat) :
    p.getCoeff (k : Int) = listGet p.coeffList k := by
  rw [Poly.getCoeff]
  by_cases h : p.size ≤ k
  · rw [if_pos (Or.inl (by exact_mod_cast h))]
    exact (listGet_eq_zero_of_le _ _ h).symm
  · rw [if_neg (by omega), Int.toNat_natCast]

theorem setCoeff_eq (p : Poly) (c e : Int) :
    p.setCoeff c e
      = if p.size ≤ e.natAbs
        then ⟨(p.coeffList ++ List.replicate (e.natAbs - p.size) 0) ++ [c]⟩
        else ⟨p.coeffList.set e.natAbs c⟩ := by
  rw [Poly.setCoeff]
  simp [copyList_eq]

theorem setCoeff_size (p : Poly) (c e : Int) :
    (p.setCoeff c e).size
      = if p.size ≤ e.natAbs then e.natAbs + 1 else p.size := by
  rw [setCoeff_eq]
  by_cases h : p.size ≤ e.natAbs
  · rw [if_pos h, if_pos h]
    simp only [Poly.size, List.length_append, List.length_replicate,
      List.length_singleton]
    simp only [Poly.size] at h
    omega
  · rw [if_neg h, if_neg h]
    simp [Poly.size]

theorem copy_coeffList (p : Poly) : (Poly.copy p).coeffList = p.coeffList :=
  copyList_eq p.coeffList

theorem add_size (p q : Poly) : (Poly.add p q).size = max p.size q.size := by
  rw [Poly.add]
  by_cases h : q.size < p.size
  · rw [if_pos h]
    simp only [Poly.size] at h ⊢
    rw [addInto_length _ _ (by rw [copyList_eq]; omega), copyList_eq]
    omega
  · rw [if_neg h]
    simp only [Poly.size] at h ⊢
    rw [addInto_length _ _ (by rw [copyList_eq]; omega), copyList_eq]
    omega

theorem add_coeff (p q : Poly) (n : Nat) :
    listGet (Poly.add p q).coeffList n
      = listGet p.coeffList n + listGet q.coeffList n := by
  rw [Poly.add]
  by_cases h : q.size < p.size
  · rw [if_pos h]
    simp only [Poly.size] at h
    rw [addInto_get _ _ (by rw [copyList_eq]; omega), copyList_eq]
  · rw [if_neg h]
    simp only [Poly.size] at h
    rw [addInto_get _ _ (by rw [copyList_eq]; omega), copyList_eq]
    ring

theorem mulInit_eq (sp sq : Nat) (hp : 1 ≤ sp) (hq : 1 ≤ sq) :
    (Poly.new0.setCoeff 0 ((sp : Int) + (sq : Int) - 2)).coeffList
      = List.replicate (sp + sq - 1) 0 := by
  have hcast : (sp : Int) + (sq : Int) - 2 = ((sp + sq - 2 : Nat) : Int) := by
    omega
  rw [setCoeff_eq, hcast]
  simp only [Int.natAbs_ofNat]
  have hsz : Poly.new0.size = 1 := rfl
  by_cases h : Poly.new0.size ≤ sp + sq - 2
  · rw [if_pos h]
    rw [hsz] at h
    have hstep : ((([0] : List Int) ++ List.replicate (sp + sq - 2 - 1) 0) ++ [0])
        = List.replicate (1 + ((sp + sq - 2 - 1) + 1)) 0 := by
      rw [List.append_assoc]
      calc ([0] : List Int) ++ (List.replicate (sp + sq - 2 - 1) 0 ++ [0])
          = List.replicate 1 0
              ++ (List.replicate (sp + sq - 2 - 1) 0 ++ List.replicate 1 0) := rfl
        _ = List.replicate 1 0 ++ List.replicate ((sp + sq - 2 - 1) + 1) 0 := by
              rw [← List.replicate_add]
        _ = List.replicate (1 + ((sp + sq - 2 - 1) + 1)) 0 := by
              rw [← List.replicate_add]
    have harith : 1 + ((sp + sq - 2 - 1) + 1) = sp + sq - 1 := by omega
    show ((Poly.new0.coeffList
        ++ List.replicate (sp + sq - 2 - Poly.new0.size) 0) ++ [(0 : Int)])
        = List.replicate (sp + sq - 1) 0
    rw [hsz]
    calc ((Poly.new0.coeffList ++ List.replicate (sp + sq - 2 - 1) 0) ++ [(0 : Int)])
        = (([0] : List Int) ++ List.replicate (sp + sq - 2 - 1) 0) ++ [0] := rfl
      _ = List.replicate (1 + ((sp + sq - 2 - 1) + 1)) 0 := hstep
      _ = List.replicate (sp + sq - 1) 0 := by rw [harith]
  · rw [if_neg h]
    rw [hsz] at h
    have h1 : sp + sq - 1 = 1 := by omega
    have h2 : sp + sq - 2 = 0 := by omega
    rw [h1, h2]
    rfl

theorem mul_size (p q : Poly) (hp : 1 ≤ p.size) (hq : 1 ≤ q.size) :
    (Poly.mul p q).size = p.size + q.size - 1 := by
  rw [Poly.mul]
  show (accumOuter (Poly.new0.setCoeff 0
      ((p.size : Int) + (q.size : Int) - 2)).coeffList
      p.coeffList q.coeffList 0).length = p.size + q.size - 1
  rw [accumOuter_length, mulInit_eq p.size q.size hp hq, List.length_replicate]

theorem mul_coeff (p q : Poly) (hp : 1 ≤ p.size) (hq : 1 ≤ q.size) (n : Nat) :
    listGet (Poly.mul p q).coeffList n
      = ∑ a ∈ Finset.range (n + 1),
          listGet p.coeffList a * listGet q.coeffList (n - a) := by
  rw [Poly.mul]
  show listGet (accumOuter (Poly.new0.setCoeff 0
      ((p.size : Int) + (q.size : Int) - 2)).coeffList
      p.coeffList q.coeffList 0) n = _
  rw [accumOuter_get p.coeffList q.coeffList _ 0 n
        (by rw [mulInit_eq p.size q.size hp hq, List.length_replicate]
            simp only [Poly.size] at hp hq ⊢
            omega),
      mulInit_eq p.size q.size hp hq, listGet_replicate]
  simp only [Nat.zero_add, zero_add]
  -- both sums equal the sum over `range M` of the `a ≤ n`-guarded summand
  set M := max p.coeffList.length (n + 1) with hM
  have hleft :
      ∑ a ∈ Finset.range p.coeffList.length,
        (if a ≤ n ∧ n < a + q.coeffList.length
         then listGet p.coeffList a * listGet q.coeffList (n - a) else 0)
      = ∑ a ∈ Finset.range M,
        (if a ≤ n
         then listGet p.coeffList a * listGet q.coeffList (n - a) else 0) := by
    rw [Finset.sum_subset
        (Finset.range_subset.2 (le_max_left p.coeffList.length (n + 1)))
        (by
          intro a _ ha
          simp only [Finset.mem_range, not_lt] at ha
          rw [listGet_eq_zero_of_le p.coeffList a ha]
          simp)]
    refine Finset.sum_congr rfl ?_
    intro a _
    by_cases h1 : a ≤ n ∧ n < a + q.coeffList.length
    · rw [if_pos h1, if_pos h1.1]
    · by_cases h2 : a ≤ n
      · have h3 : q.coeffList.length ≤ n - a := by omega
        rw [if_neg h1, if_pos h2, listGet_eq_zero_of_le q.coeffList _ h3]
        simp
      · rw [if_neg h1, if_neg h2]
  have hright :
      ∑ a ∈ Finset.range (n + 1),
        listGet p.coeffList a * listGet q.coeffList (n - a)
      = ∑ a ∈ Finset.range M,
        (if a ≤ n
         then listGet p.coeffList a * listGet q.coeffList (n - a) else 0) := by
    have step1 :
        ∑ a ∈ Finset.range (n + 1),
          listGet p.coeffList a * listGet q.coeffList (n - a)
        = ∑ a ∈ Finset.range (n + 1),
          (if a ≤ n
           then listGet p.coeffList a * listGet q.coeffList (n - a) else 0) := by
      refine Finset.sum_congr rfl ?_
      intro a ha
      simp only [Finset.mem_range] at ha
      rw [if_pos (by omega)]
    rw [step1]
    exact Finset.sum_subset
      (Finset.range_subset.2 (le_max_right p.coeffList.length (n + 1)))
      (by
        intro a _ ha
        simp only [Finset.mem_range, not_lt] at ha
        rw [if_neg (by omega)])
  rw [hleft, hright]

theorem inPlaceCombine_length (f : Int → Int → Int) (bs : List Int) :
    ∀ rhs junk i, (inPlaceCombine f bs rhs junk i).length = bs.length := by
  induction bs with
  | nil => intro rhs junk i; rfl
  | cons b more ih =>
    intro rhs junk i
    simp only [inPlaceCombine, List.length_cons]
    rw [ih]

theorem zeroAll_size (p : Poly) : p.zeroAll.size = p.size := by
  simp [Poly.zeroAll, Poly.size]

theorem zeroAll_coeff (p : Poly) (k : Nat) :
    listGet p.zeroAll.coeffList k = 0 := by
  rcases lt_or_le k p.coeffList.length with h | h
  · simp [Poly.zeroAll, listGet, List.getD, List.getElem?_map,
      List.getElem?_eq_getElem h]
  · exact listGet_eq_zero_of_le _ _ (by simpa [Poly.zeroAll] using h)

/-- Encoding of a pair list into the flat token stream read by
`operator>>` (each pair contributes its coefficient then its exponent). -/
def pairsToStream : List (Int × Int) → List Int → List Int
  | [], rest => rest
  | pr :: prs, rest => pr.1 :: pr.2 :: pairsToStream prs rest

theorem parseLoop_terminator (rest : List Int) (t : Poly) :
    parseLoop 0 0 rest t = some (t, rest) := by
  rw [parseLoop.eq_def]
  simp

theorem parseLoop_encode (pairs : List (Int × Int)) (tail : List Int) :
    ∀ (c e : Int) (t : Poly), ¬(c = 0 ∧ e = 0) →
      (∀ pr ∈ pairs, ¬(pr.1 = 0 ∧ pr.2 = 0)) →
      parseLoop c e (pairsToStream pairs (0 :: 0 :: tail)) t
        = some (pairs.foldl (fun a pr => a.setCoeff pr.1 pr.2) (t.setCoeff c e),
                tail) := by
  induction pairs with
  | nil =>
    intro c e t hce _
    simp only [pairsToStream, List.foldl_nil]
    rw [parseLoop.eq_def, if_neg hce]
    exact parseLoop_terminator tail (t.setCoeff c e)
  | cons pr prs ih =>
    intro c e t hce hall
    have hpr : ¬(pr.1 = 0 ∧ pr.2 = 0) := hall pr (List.mem_cons_self pr prs)
    have hrest : ∀ q ∈ prs, ¬(q.1 = 0 ∧ q.2 = 0) :=
      fun q hq => hall q (List.mem_cons_of_mem pr hq)
    simp only [pairsToStream, List.foldl_cons]
    rw [parseLoop.eq_def, if_neg hce]
    exact ih pr.1 pr.2 (t.setCoeff c e) hpr hrest

theorem opInput_encode (pairs : List (Int × Int)) (tail : List Int) (p : Poly)
    (hall : ∀ pr ∈ pairs, ¬(pr.1 = 0 ∧ pr.2 = 0)) :
    opInput (pairsToStream pairs (0 :: 0 :: tail)) p
      = some (pairs.foldl (fun a pr => a.setCoeff pr.1 pr.2) p.zeroAll, tail) := by
  cases pairs with
  | nil =>
    simp only [pairsToStream, List.foldl_nil]
    exact parseLoop_terminator tail p.zeroAll
  | cons pr prs =>
    have hpr : ¬(pr.1 = 0 ∧ pr.2 = 0) := hall pr (List.mem_cons_self pr prs)
    have hrest : ∀ q ∈ prs, ¬(q.1 = 0 ∧ q.2 = 0) :=
      fun q hq => hall q (List.mem_cons_of_mem pr hq)
    simp only [pairsToStream, List.foldl_cons]
    exact parseLoop_encode prs tail pr.1 pr.2 p.zeroAll hpr hrest

theorem setCoeff_size_pos (p : Poly) (c e : Int) (h : 1 ≤ p.size) :
    1 ≤ (p.setCoeff c e).size := by
  rw [setCoeff_size]
  split <;> omega

theorem parseLoop_size_pos :
    ∀ (n : Nat) (rest : List Int) (c e : Int) (t : Poly)
      (res : Poly × List Int), rest.length ≤ n →
      1 ≤ t.size → parseLoop c e rest t = some res → 1 ≤ res.1.size := by
  intro n
  induction n with
  | zero =>
    intro rest c e t res hlen ht hres
    rw [parseLoop.eq_def] at hres
    by_cases hce : c = 0 ∧ e = 0
    · rw [if_pos hce] at hres
      cases hres
      exact ht
    · rw [if_neg hce] at hres
      cases rest with
      | nil => simp at hres
      | cons a as =>
        cases as with
        | nil => simp at hres
        | cons b bs => simp at hlen
  | succ m ih =>
    intro rest c e t res hlen ht hres
    rw [parseLoop.eq_def] at hres
    by_cases hce : c = 0 ∧ e = 0
    · rw [if_pos hce] at hres
      cases hres
      exact ht
    · rw [if_neg hce] at hres
      cases rest with
      | nil => simp at hres
      | cons a as =>
        cases as with
        | nil => simp at hres
        | cons b bs =>
          refine ih bs a b (t.setCoeff c e) res ?_
            (setCoeff_size_pos t c e ht) hres
          simp only [List.length_cons] at hlen
          omega

theorem opInput_size_pos (s : List Int) (p : Poly) (res : Poly × List Int)
    (hp : 1 ≤ p.size) (hres : opInput s p = some res) : 1 ≤ res.1.size := by
  cases s with
  | nil => simp [opInput] at hres
  | cons a as =>
    cases as with
    | nil => simp [opInput] at hres
    | cons b bs =>
      exact parseLoop_size_pos bs.length bs a b p.zeroAll res (le_refl _)
        (by rw [zeroAll_size]; exact hp) hres

/-- An initially empty stream, for evaluating the stream operators. -/
def emptyStream : String := ""

-- claim theorems

/-- C8: for every polynomial and every integer exponent, `getCoeff` never
signals an error: it returns 0 when the exponent is negative or at least
the length, and the stored coefficient otherwise.  The receiver is left
unchanged by construction: the embedding is value-semantic and `getCoeff`
takes the `Poly` as a read-only value. -/
theorem getCoeff_total (p : Poly) (e : Int) :
    ((e < 0 ∨ (p.size : Int) ≤ e) → p.getCoeff e = 0) ∧
    (0 ≤ e → e < (p.size : Int) →
      p.getCoeff e = listGet p.coeffList e.toNat) := by
  constructor
  · intro h
    rw [Poly.getCoeff, if_pos (by tauto)]
  · intro h1 h2
    rw [Poly.getCoeff, if_neg (by omega)]

/-- Witness for C8 at a length-6 polynomial and exponents 7, -1 and 5. -/
theorem getCoeff_total_witness :
    (Poly.new2 4 5).getCoeff 7 = 0 ∧ (Poly.new2 4 5).getCoeff (-1) = 0 ∧
    (Poly.new2 4 5).getCoeff 5 = listGet (Poly.new2 4 5).coeffList 5 :=
  ⟨(getCoeff_total (Poly.new2 4 5) 7).1 (by decide),
   (getCoeff_total (Poly.new2 4 5) (-1)).1 (by decide),
   (getCoeff_total (Poly.new2 4 5) 5).2 (by decide) (by decide)⟩

/-- C10: self-assignment takes the aliasing branch of the assignment
operator and leaves the polynomial untouched: the length and every
coefficient are unchanged. -/
theorem assign_self_id (p : Poly) :
    Poly.assign p p true = p ∧
    (Poly.assign p p true).size = p.size ∧
    ∀ e : Int, (Poly.assign p p true).getCoeff e = p.getCoeff e :=
  ⟨rfl, rfl, fun _ => rfl⟩

/-- C5: the mutator setCoeff stores the coefficient at the absolute value
of the exponent; beyond the current length the buffer is regrown to that
index plus one with the old entries as prefix, zeros in the newly exposed
middle, and the coefficient in the last slot; in range, the length is
unchanged. -/
theorem setCoeff_spec (p : Poly) (c e : Int) :
    (p.setCoeff c e).getCoeff (e.natAbs : Int) = c ∧
    (e.natAbs < p.size → (p.setCoeff c e).size = p.size) ∧
    (p.size ≤ e.natAbs →
      (p.setCoeff c e).size = e.natAbs + 1 ∧
      (∀ k : Nat, k < p.size →
        (p.setCoeff c e).getCoeff (k : Int) = p.getCoeff (k : Int)) ∧
      (∀ k : Nat, p.size ≤ k → k < e.natAbs →
        (p.setCoeff c e).getCoeff (k : Int) = 0)) := by
  have hL : p.coeffList.length = p.size := rfl
  refine ⟨?_, ?_, ?_⟩
  · rw [coeff_natCast, setCoeff_eq]
    by_cases h : p.size ≤ e.natAbs
    · rw [if_pos h]
      show listGet ((p.coeffList ++ List.replicate (e.natAbs - p.size) 0) ++ [c])
          e.natAbs = c
      have hlen1 : (p.coeffList ++ List.replicate (e.natAbs - p.size) 0).length
          = e.natAbs := by
        simp only [List.length_append, List.length_replicate, hL]
        omega
      rw [listGet_append_right _ _ e.natAbs (le_of_eq hlen1), hlen1,
        Nat.sub_self, listGet_cons_zero]
    · rw [if_neg h]
      show listGet (p.coeffList.set e.natAbs c) e.natAbs = c
      rw [listGet_set, if_pos ⟨rfl, by omega⟩]
  · intro h
    rw [setCoeff_size, if_neg (by omega)]
  · intro h
    have hlen1 : (p.coeffList ++ List.replicate (e.natAbs - p.size) 0).length
        = e.natAbs := by
      simp only [List.length_append, List.length_replicate, hL]
      omega
    refine ⟨by rw [setCoeff_size, if_pos h], ?_, ?_⟩
    · intro k hk
      rw [coeff_natCast, coeff_natCast, setCoeff_eq, if_pos h]
      show listGet ((p.coeffList ++ List.replicate (e.natAbs - p.size) 0) ++ [c])
          k = listGet p.coeffList k
      rw [listGet_append_left _ _ k (by rw [hlen1]; omega),
          listGet_append_left _ _ k (by rw [hL]; omega)]
    · intro k hk1 hk2
      rw [coeff_natCast, setCoeff_eq, if_pos h]
      show listGet ((p.coeffList ++ List.replicate (e.natAbs - p.size) 0) ++ [c])
          k = 0
      rw [listGet_append_left _ _ k (by rw [hlen1]; omega),
          listGet_append_right _ _ k (by rw [hL]; omega), hL, listGet_replicate]

/-- Witness for C5: growing a default polynomial to exponent 2. -/
theorem setCoeff_spec_witness :
    (Poly.new0.setCoeff 7 2).getCoeff 2 = 7 ∧
    (Poly.new0.setCoeff 7 2).size = 3 ∧
    (Poly.new0.setCoeff 7 2).getCoeff 1 = 0 :=
  ⟨by
    have h := (setCoeff_spec Poly.new0 7 2).1
    simpa using h,
   ((setCoeff_spec Poly.new0 7 2).2.2 (by decide)).1,
   by
    have h := ((setCoeff_spec Poly.new0 7 2).2.2 (by decide)).2.2 1
      (by decide) (by decide)
    simpa using h⟩

/-- C4: the equality test is true iff, with smaller the operand of
lesser-or-equal length, the coefficients of smaller all match those of
larger at the same exponents and every coefficient of larger past the
length of smaller is zero; the inequality test is the boolean negation. -/
theorem eq_spec (a b : Poly) :
    (Poly.eq a b = true ↔
      ((∀ i : Nat, i < (if a.size ≤ b.size then a else b).size →
          (if a.size ≤ b.size then a else b).getCoeff (i : Int)
            = (if a.size ≤ b.size then b else a).getCoeff (i : Int)) ∧
       (∀ i : Nat, (if a.size ≤ b.size then a else b).size ≤ i →
          i < (if a.size ≤ b.size then b else a).size →
          (if a.size ≤ b.size then b else a).getCoeff (i : Int) = 0))) ∧
    Poly.ne a b = !(Poly.eq a b) := by
  refine ⟨?_, rfl⟩
  by_cases hab : a.size ≤ b.size
  · simp only [if_pos hab]
    rw [Poly.eq, if_neg (by omega), Poly.compare,
        compareAux_iff a.coeffList b.coeffList hab]
    simp only [coeff_natCast, Poly.size]
  · simp only [if_neg hab]
    rw [Poly.eq, if_pos (by omega), Poly.compare,
        compareAux_iff b.coeffList a.coeffList
          (by simp only [Poly.size] at hab ⊢; omega)]
    simp only [coeff_natCast, Poly.size]

/-- C3: the binary product has length `size + rhs.size - 1` and its
coefficient at exponent k is the full convolution sum over index pairs
adding up to k; the operands are read-only values in the embedding, hence
unchanged. -/
theorem mul_spec (p q : Poly) (hp : 1 ≤ p.size) (hq : 1 ≤ q.size) :
    (Poly.mul p q).size = p.size + q.size - 1 ∧
    ∀ k : Nat, (Poly.mul p q).getCoeff (k : Int)
      = ∑ i ∈ Finset.range (k + 1),
          p.getCoeff (i : Int) * q.getCoeff ((k - i : Nat) : Int) := by
  refine ⟨mul_size p q hp hq, fun k => ?_⟩
  rw [coeff_natCast, mul_coeff p q hp hq k]
  refine Finset.sum_congr rfl ?_
  intro i _
  rw [coeff_natCast, coeff_natCast]

/-- Witness for C3 at the product of two one-term degree-1 polynomials,
exponent 2. -/
theorem mul_spec_witness :
    (Poly.mul (Poly.new2 2 1) (Poly.new2 3 1)).size
      = (Poly.new2 2 1).size + (Poly.new2 3 1).size - 1 ∧
    (Poly.mul (Poly.new2 2 1) (Poly.new2 3 1)).getCoeff ((2 : Nat) : Int)
      = ∑ i ∈ Finset.range 3,
          (Poly.new2 2 1).getCoeff (i : Int)
            * (Poly.new2 3 1).getCoeff ((2 - i : Nat) : Int) :=
  ⟨(mul_spec (Poly.new2 2 1) (Poly.new2 3 1) (by decide) (by decide)).1,
   (mul_spec (Poly.new2 2 1) (Poly.new2 3 1) (by decide) (by decide)).2 2⟩

/-- C7: addition and multiplication are commutative with respect to the
polynomial equality test: `p + q == q + p` and `p * q == q * p`. -/
theorem add_mul_comm_eq (p q : Poly) (hp : 1 ≤ p.size) (hq : 1 ≤ q.size) :
    Poly.eq (Poly.add p q) (Poly.add q p) = true ∧
    Poly.eq (Poly.mul p q) (Poly.mul q p) = true := by
  constructor
  · apply eq_true_of_ext
    · rw [add_size, add_size, Nat.max_comm]
    · intro k
      rw [add_coeff, add_coeff]
      ring
  · apply eq_true_of_ext
    · rw [mul_size p q hp hq, mul_size q p hq hp, Nat.add_comm]
    · intro k
      rw [mul_coeff p q hp hq k, mul_coeff q p hq hp k]
      rw [← Finset.sum_range_reflect
        (fun a => listGet q.coeffList a * listGet p.coeffList (k - a)) (k + 1)]
      refine Finset.sum_congr rfl ?_
      intro i hi
      simp only [Finset.mem_range] at hi
      have h1 : k + 1 - 1 - i = k - i := by omega
      have h2 : k - (k - i) = i := by omega
      rw [h1, h2, mul_comm]

/-- Witness for C7 at `3 + 4x^2` against `x`. -/
theorem add_mul_comm_eq_witness :
    Poly.eq (Poly.add (Poly.new2 4 2) (Poly.new2 1 1))
        (Poly.add (Poly.new2 1 1) (Poly.new2 4 2)) = true ∧
    Poly.eq (Poly.mul (Poly.new2 4 2) (Poly.new2 1 1))
        (Poly.mul (Poly.new2 1 1) (Poly.new2 4 2)) = true :=
  add_mul_comm_eq (Poly.new2 4 2) (Poly.new2 1 1) (by decide) (by decide)

/-- C6: parsing a well-formed stream zeroes the existing entries of the
target (length preserved), then applies every pair before the terminating
`0 0` as a `setCoeff` in stream order, and stops at the terminator without
applying it; and parsing the stream `5 2 3 0 0 0` into a default
polynomial gives coefficient 3 at exponent 0 and 5 at exponent 2 (zero
elsewhere), consuming the whole stream. -/
theorem opInput_spec :
    (∀ (pairs : List (Int × Int)) (tail : List Int) (p : Poly),
        (∀ pr ∈ pairs, ¬(pr.1 = 0 ∧ pr.2 = 0)) →
        opInput (pairsToStream pairs (0 :: 0 :: tail)) p
          = some (pairs.foldl (fun a pr => a.setCoeff pr.1 pr.2) p.zeroAll,
                  tail)) ∧
    (∀ p : Poly, p.zeroAll.size = p.size ∧
        ∀ k : Nat, listGet p.zeroAll.coeffList k = 0) ∧
    opInput [5, 2, 3, 0, 0, 0] Poly.new0 = some (⟨[3, 0, 5]⟩, []) := by
  refine ⟨opInput_encode, fun p => ⟨zeroAll_size p, zeroAll_coeff p⟩, ?_⟩
  decide

/-- Witness for C6: the pair list [(5, 2), (3, 0)] with an empty tail. -/
theorem opInput_spec_witness :
    opInput (pairsToStream [((5 : Int), (2 : Int)), (3, 0)] (0 :: 0 :: []))
        Poly.new0
      = some ([((5 : Int), (2 : Int)), (3, 0)].foldl
          (fun a pr => a.setCoeff pr.1 pr.2) Poly.new0.zeroAll, []) :=
  opInput_spec.1 [(5, 2), (3, 0)] [] Poly.new0 (by decide)

/-- C9: every constructor yields length at least 1, and setCoeff,
assignment, the compound arithmetic assignments and parsing all preserve
that invariant (for the compound multiply, over any contents of the
uninitialized accumulator of the correct allocated length). -/
theorem length_invariant :
    (1 ≤ Poly.new0.size) ∧
    (∀ c : Int, 1 ≤ (Poly.new1 c).size) ∧
    (∀ c e : Int, 1 ≤ (Poly.new2 c e).size) ∧
    (∀ p : Poly, 1 ≤ p.size → 1 ≤ (Poly.copy p).size) ∧
    (∀ (p : Poly) (c e : Int), 1 ≤ p.size → 1 ≤ (p.setCoeff c e).size) ∧
    (∀ (p q : Poly) (sa : Bool), 1 ≤ p.size → 1 ≤ q.size →
        1 ≤ (Poly.assign p q sa).size) ∧
    (∀ (p q : Poly) (junk : Nat → Int), 1 ≤ p.size →
        1 ≤ (p.addAssign q junk).size) ∧
    (∀ (p q : Poly) (junk : Nat → Int), 1 ≤ p.size →
        1 ≤ (p.subAssign q junk).size) ∧
    (∀ (p q : Poly) (junk : List Int), 1 ≤ p.size → 1 ≤ q.size →
        junk.length = p.size + q.size - 1 → 1 ≤ (p.mulAssign q junk).size) ∧
    (∀ (s : List Int) (p : Poly) (res : Poly × List Int), 1 ≤ p.size →
        opInput s p = some res → 1 ≤ res.1.size) := by
  refine ⟨Nat.le_refl 1, fun c => Nat.le_refl 1, ?_, ?_, ?_, ?_, ?_, ?_, ?_, ?_⟩
  · intro c e
    show 1 ≤ (List.replicate e.natAbs (0 : Int) ++ [c]).length
    simp
  · intro p hp
    show 1 ≤ (copyList p.coeffList).length
    rw [copyList_eq]
    exact hp
  · intro p c e hp
    exact setCoeff_size_pos p c e hp
  · intro p q sa hp hq
    rw [Poly.assign]
    by_cases h : sa = true
    · rw [if_pos h]; exact hp
    · rw [if_neg h]
      show 1 ≤ (copyList q.coeffList).length
      rw [copyList_eq]
      exact hq
  · intro p q junk hp
    show 1 ≤ (inPlaceCombine (· + ·)
        (if p.size < q.size then p.setCoeff 0 ((q.size : Int) - 1) else p).coeffList
        q.coeffList junk 0).length
    rw [inPlaceCombine_length]
    by_cases h : p.size < q.size
    · rw [if_pos h]
      exact setCoeff_size_pos p 0 _ hp
    · rw [if_neg h]
      exact hp
  · intro p q junk hp
    show 1 ≤ (inPlaceCombine (· - ·)
        (if p.size < q.size then p.setCoeff 0 ((q.size : Int) - 1) else p).coeffList
        q.coeffList junk 0).length
    rw [inPlaceCombine_length]
    by_cases h : p.size < q.size
    · rw [if_pos h]
      exact setCoeff_size_pos p 0 _ hp
    · rw [if_neg h]
      exact hp
  · intro p q junk hp hq hlen
    show 1 ≤ ((accumOuter junk p.coeffList q.coeffList 0).take p.size).length
    rw [List.length_take, accumOuter_length, hlen]
    omega
  · intro s p res hp hres
    exact opInput_size_pos s p res hp hres

/-- Witness for C9: a grown default polynomial and an in-place product. -/
theorem length_invariant_witness :
    1 ≤ (Poly.new0.setCoeff 7 2).size ∧
    1 ≤ (Poly.mulAssign (Poly.new2 1 1) (Poly.new2 1 1) [0, 0, 0]).size :=
  ⟨length_invariant.2.2.2.2.1 Poly.new0 7 2 (by decide),
   length_invariant.2.2.2.2.2.2.2.2.1 (Poly.new2 1 1) (Poly.new2 1 1)
     [0, 0, 0] (by decide) (by decide) (by decide)⟩

/-- C1 fails on the code: `operator*=` accumulates into an uninitialized
buffer and never updates the stored `size`, so `x *= x` (with the fresh
allocation happening to be all zeroes, the most charitable reading of the
uninitialized memory) still has length 2 — not 3 as the convolution
contract requires — and reads coefficient 0 at exponent 2 instead of 1;
moreover garbage in the allocation (here 7 in the first cell) leaks
straight into the observable coefficients. -/
theorem mulAssign_bug_eval :
    (Poly.mulAssign (Poly.new2 1 1) (Poly.new2 1 1) [0, 0, 0]).size = 2 ∧
    (Poly.mulAssign (Poly.new2 1 1) (Poly.new2 1 1) [0, 0, 0]).getCoeff 2 = 0 ∧
    (Poly.mulAssign (Poly.new2 1 1) (Poly.new2 1 1) [7, 0, 0]).getCoeff 0 = 7 := by
  decide

/-- C2 fails on the code: `operator<<` sends every character to the global
`cout`, so a distinct sink passed as the `output` parameter comes back
empty while `cout` receives the text; the emitted text itself follows the
documented grammar (here `Poly(4, 5)` gives `" +4x^5"`, the spec example
renders `" +1x^3 -3x^2 +4"`, and an all-zero polynomial gives `" 0"`). -/
theorem opOutput_bug_eval :
    (opOutput emptyStream emptyStream (Poly.new2 4 5)).1 = emptyStream ∧
    (opOutput emptyStream emptyStream (Poly.new2 4 5)).2 = " +4x^5" ∧
    polyFormat (⟨[4, 0, -3, 1]⟩ : Poly) = " +1x^3 -3x^2 +4" ∧
    polyFormat (⟨[0, 0, 0]⟩ : Poly) = " 0" := by
  refine ⟨rfl, ?_, ?_, ?_⟩ <;> decide

end PolyCpp
